import Mathlib

/-!
Verification of the data-preview extension sources: the `DataPreview` webview
panel (`getDataUrls` spec-tree walk, `getData` local-file loading, `refresh`,
`getLocalResourceRoots`, the serializer) and the `Json5DataProvider`.

JavaScript runtime values that the code manipulates dynamically (`any`-typed
spec trees) are modelled by the `JSVal` type, with `JSVal.undef` standing for
the JavaScript `undefined` value.  Host collaborators (the filesystem, Node's
`path` functions, the JSON / JSON5 parsers, the vscode workspace API) are
passed in as explicit function parameters.
-/

namespace DataPreviewSpec

/-- A JavaScript runtime value as manipulated by the preview code: `undef`
models the JavaScript `undefined` value, objects are association lists.  -/
inductive JSVal where
  | undef
  | null
  | bool (b : Bool)
  | num (n : Int)
  | str (s : String)
  | arr (elems : List JSVal)
  | obj (fields : List (String × JSVal))

/-- `true` exactly on the JavaScript `undefined` value (`x === undefined`). -/
def isUndef : JSVal → Bool
  | .undef => true
  | _ => false

/-- First binding of `key` in an association list, JavaScript-style: an absent
key reads as `undefined`. -/
def lookupField : List (String × JSVal) → String → JSVal
  | [], _ => .undef
  | f :: fs, key => if f.1 = key then f.2 else lookupField fs key

/-- JavaScript property access `v[key]`: a defined field of an object, and
`undefined` on every non-object (and on `undefined` itself, where the actual
JavaScript would throw; no analysed code path reads a property of
`undefined` without first checking for it). -/
def idx (v : JSVal) (key : String) : JSVal :=
  match v with
  | .obj fields => lookupField fields key
  | _ => .undef

mutual

/-- Size of a spec tree; `undefined` counts 0 so that every defined value is
strictly larger than the `undefined` padding `Array.prototype.concat`
introduces for absent composition keys. -/
def jsize : JSVal → Nat
  | .undef => 0
  | .null => 1
  | .bool _ => 1
  | .num _ => 1
  | .str _ => 1
  | .arr xs => 1 + jsizeList xs
  | .obj fs => 1 + jsizeFields fs

/-- Sum of the sizes of the elements of an array. -/
def jsizeList : List JSVal → Nat
  | [] => 0
  | x :: xs => jsize x + jsizeList xs

/-- Sum of the sizes of the values of an object's fields. -/
def jsizeFields : List (String × JSVal) → Nat
  | [] => 0
  | f :: fs => jsize f.2 + jsizeFields fs

end

/-- The `data` property key. -/
def dataKey : String := "data"

/-- The `url` property key. -/
def urlKey : String := "url"

/-- The `layer` property key. -/
def layerKey : String := "layer"

/-- The `concat` property key. -/
def concatKey : String := "concat"

/-- The `hconcat` property key. -/
def hconcatKey : String := "hconcat"

/-- The `vconcat` property key. -/
def vconcatKey : String := "vconcat"

/-- The `transform` property key. -/
def transformKey : String := "transform"

/-- The `from` property key. -/
def fromKey : String := "from"

/-- The `spec` property key (nested view compositions). -/
def specKey : String := "spec"

/-- The prefix that marks a remote data url in `DataPreview.getData`. -/
def httpPrefix : String := "http"

/-- JavaScript `acc.concat(v)`: an array argument is spread, any other value
(including `undefined`) is appended as a single element. -/
def jsConcat (acc : List JSVal) (v : JSVal) : List JSVal :=
  match v with
  | .arr xs => acc ++ xs
  | x => acc ++ [x]

/-- The `layers` list built in `DataPreview.getDataUrls`:
`[].concat(spec['layer']).concat(spec['concat']).concat(spec['hconcat']).concat(spec['vconcat'])`. -/
def layersOf (spec : JSVal) : List JSVal :=
  jsConcat (jsConcat (jsConcat (jsConcat [] (idx spec layerKey)) (idx spec concatKey))
    (idx spec hconcatKey)) (idx spec vconcatKey)

/-- The list of transform entries iterated by `DataPreview.getDataUrls`: the
elements of `spec['transform']` when that property is an array, and no entries
when it is `undefined`.  (On a defined non-array `transform` the JavaScript
`forEach` call would throw; no url is collected there either way.) -/
def transformsOf (spec : JSVal) : List JSVal :=
  match idx spec transformKey with
  | .arr ts => ts
  | _ => []

/-- The urls pushed for the `data` property in `DataPreview.getDataUrls`:
for an array, the `url` of every element whose `url` is defined; for any other
defined value, its `url` when defined. -/
def dataUrlsOfData (data : JSVal) : List JSVal :=
  match data with
  | .undef => []
  | .arr ds => (ds.filter (fun d => !(isUndef (idx d urlKey)))).map (fun d => idx d urlKey)
  | d => if isUndef (idx d urlKey) = false then [idx d urlKey] else []

/-- `DataPreview.getDataUrls` transcribed with an explicit recursion-depth
counter `fuel`; `getDataUrls` below instantiates the fuel with a bound that
the termination theorem proves sufficient.  Each step collects the `data`
urls, recurses on every element of the `layers` list, then recurses on
`t['from']` for every transform entry `t`, in source order. -/
def getDataUrlsFuel : Nat → JSVal → List JSVal
  | 0, _ => []
  | Nat.succ n, spec =>
    if isUndef spec then []
    else
      dataUrlsOfData (idx spec dataKey)
        ++ ((layersOf spec).map (fun l => getDataUrlsFuel n l)).flatten
        ++ ((transformsOf spec).map (fun t => getDataUrlsFuel n (idx t fromKey))).flatten

/-- `DataPreview.getDataUrls`: the recursive data-url extraction, run with
fuel `jsize spec + 1`; the termination theorem shows every fuel above
`jsize spec` gives the same result, so this is the function the source's
unbounded recursion computes. -/
def getDataUrls (spec : JSVal) : List JSVal :=
  getDataUrlsFuel (jsize spec + 1) spec

/-! ### Size lemmas: every recursive call of `getDataUrls` strictly shrinks the tree -/

theorem isUndef_false_iff (v : JSVal) : isUndef v = false ↔ v ≠ JSVal.undef := by
  cases v <;> simp [isUndef]

theorem jsize_pos (v : JSVal) (h : isUndef v = false) : 1 ≤ jsize v := by
  cases v with
  | undef => simp [isUndef] at h
  | null => simp [jsize]
  | bool b => simp [jsize]
  | num n => simp [jsize]
  | str s => simp [jsize]
  | arr xs => simp only [jsize]; omega
  | obj fs => simp only [jsize]; omega

theorem jsize_lookupField_le (fs : List (String × JSVal)) (k : String) :
    jsize (lookupField fs k) ≤ jsizeFields fs := by
  induction fs with
  | nil => simp [lookupField, jsize, jsizeFields]
  | cons f fs ih =>
    by_cases h : f.1 = k
    · simp [lookupField, h, jsizeFields]
    · simp only [lookupField, h, if_false, jsizeFields]
      exact le_trans ih (Nat.le_add_left _ _)

theorem jsize_idx_le (v : JSVal) (k : String) : jsize (idx v k) ≤ jsize v := by
  cases v with
  | obj fs =>
    have hle := jsize_lookupField_le fs k
    simp only [idx, jsize]
    omega
  | undef => simp [idx, jsize]
  | null => simp [idx, jsize]
  | bool b => simp [idx, jsize]
  | num n => simp [idx, jsize]
  | str s => simp [idx, jsize]
  | arr xs => simp [idx, jsize]

theorem jsize_idx_lt (v : JSVal) (k : String) (h : isUndef v = false) :
    jsize (idx v k) < jsize v := by
  cases v with
  | undef => exact absurd h (by simp [isUndef])
  | obj fs =>
    have hle := jsize_lookupField_le fs k
    simp only [idx, jsize]
    omega
  | null => simp [idx, jsize]
  | bool b => simp [idx, jsize]
  | num n => simp [idx, jsize]
  | str s => simp [idx, jsize]
  | arr xs => simp only [idx, jsize]; omega

theorem jsize_mem_le (x : JSVal) (xs : List JSVal) (h : x ∈ xs) :
    jsize x ≤ jsizeList xs := by
  induction xs with
  | nil => cases h
  | cons y ys ih =>
    rcases List.mem_cons.mp h with rfl | h'
    · simp [jsizeList]
    · calc jsize x ≤ jsizeList ys := ih h'
        _ ≤ jsize y + jsizeList ys := Nat.le_add_left _ _
        _ = jsizeList (y :: ys) := by simp [jsizeList]

theorem jsize_arr_elem_lt (x : JSVal) (xs : List JSVal) (h : x ∈ xs) :
    jsize x < jsize (JSVal.arr xs) := by
  have hle := jsize_mem_le x xs h
  simp only [jsize]
  omega

theorem mem_jsConcat (l : JSVal) (acc : List JSVal) (v : JSVal) (h : l ∈ jsConcat acc v) :
    l ∈ acc ∨ l = v ∨ ∃ xs, v = JSVal.arr xs ∧ l ∈ xs := by
  cases v <;> simp [jsConcat] at h <;> tauto

theorem mem_layersOf_lt (spec l : JSVal) (h : isUndef spec = false)
    (hl : l ∈ layersOf spec) : jsize l < jsize spec := by
  have step : ∀ (acc : List JSVal) (k : String),
      (∀ x ∈ acc, jsize x < jsize spec) →
      ∀ x ∈ jsConcat acc (idx spec k), jsize x < jsize spec := by
    intro acc k hacc x hx
    rcases mem_jsConcat x acc (idx spec k) hx with hmem | rfl | ⟨xs, harr, hxs⟩
    · exact hacc x hmem
    · exact jsize_idx_lt spec k h
    · calc jsize x < jsize (JSVal.arr xs) := jsize_arr_elem_lt x xs hxs
        _ = jsize (idx spec k) := by rw [harr]
        _ < jsize spec := jsize_idx_lt spec k h
  refine step _ vconcatKey (step _ hconcatKey (step _ concatKey (step _ layerKey ?_))) l hl
  intro x hx
  cases hx

theorem idx_arr_isUndef_false (spec : JSVal) (k : String) (ts : List JSVal)
    (h : idx spec k = JSVal.arr ts) : isUndef spec = false := by
  cases spec <;> simp [idx, isUndef] at h ⊢

theorem mem_transformsOf_from_lt (spec t : JSVal) (ht : t ∈ transformsOf spec) :
    jsize (idx t fromKey) < jsize spec := by
  unfold transformsOf at ht
  split at ht
  · rename_i ts harr
    have hu : isUndef spec = false := idx_arr_isUndef_false spec transformKey ts harr
    calc jsize (idx t fromKey) ≤ jsize t := jsize_idx_le t fromKey
      _ < jsize (JSVal.arr ts) := jsize_arr_elem_lt t ts ht
      _ = jsize (idx spec transformKey) := by rw [harr]
      _ < jsize spec := jsize_idx_lt spec transformKey hu
  · cases ht

/-- Any two sufficient fuels compute the same urls: the recursion depth of
`getDataUrls` is bounded by the size of the spec tree. -/
theorem getDataUrlsFuel_stable :
    ∀ (n : Nat) (spec : JSVal) (m : Nat), jsize spec < n → jsize spec < m →
      getDataUrlsFuel n spec = getDataUrlsFuel m spec := by
  intro n
  induction n with
  | zero => intro spec m h1 _; cases h1
  | succ n ih =>
    intro spec m h1 h2
    cases m with
    | zero => cases h2
    | succ m =>
      by_cases hu : isUndef spec
      · simp [getDataUrlsFuel, hu]
      · have hu' : isUndef spec = false := by simpa using hu
        have hspec1 : jsize spec ≤ n := Nat.lt_succ_iff.mp h1
        have hspec2 : jsize spec ≤ m := Nat.lt_succ_iff.mp h2
        simp only [getDataUrlsFuel, hu', if_false, Bool.false_eq_true]
        have hlayers : (layersOf spec).map (fun l => getDataUrlsFuel n l)
            = (layersOf spec).map (fun l => getDataUrlsFuel m l) := by
          apply List.map_congr_left
          intro l hl
          have hlt := mem_layersOf_lt spec l hu' hl
          exact ih l m (lt_of_lt_of_le hlt hspec1) (lt_of_lt_of_le hlt hspec2)
        have htrans : (transformsOf spec).map (fun t => getDataUrlsFuel n (idx t fromKey))
            = (transformsOf spec).map (fun t => getDataUrlsFuel m (idx t fromKey)) := by
          apply List.map_congr_left
          intro t htm
          have hlt := mem_transformsOf_from_lt spec t htm
          exact ih (idx t fromKey) m (lt_of_lt_of_le hlt hspec1) (lt_of_lt_of_le hlt hspec2)
        rw [hlayers, htrans]

theorem getDataUrls_undef : getDataUrls JSVal.undef = [] := rfl

/-- Unfolding equation of `getDataUrls` on any defined spec, mirroring the
body of the source function. -/
theorem getDataUrls_eq (spec : JSVal) (h : isUndef spec = false) :
    getDataUrls spec = dataUrlsOfData (idx spec dataKey)
      ++ ((layersOf spec).map getDataUrls).flatten
      ++ ((transformsOf spec).map (fun t => getDataUrls (idx t fromKey))).flatten := by
  show getDataUrlsFuel (Nat.succ (jsize spec)) spec = _
  simp only [getDataUrlsFuel, h, if_false, Bool.false_eq_true]
  have h1 : (layersOf spec).map (fun l => getDataUrlsFuel (jsize spec) l)
      = (layersOf spec).map getDataUrls := by
    apply List.map_congr_left
    intro l hl
    exact getDataUrlsFuel_stable (jsize spec) l (jsize l + 1)
      (mem_layersOf_lt spec l h hl) (Nat.lt_succ_self _)
  have h2 : (transformsOf spec).map (fun t => getDataUrlsFuel (jsize spec) (idx t fromKey))
      = (transformsOf spec).map (fun t => getDataUrls (idx t fromKey)) := by
    apply List.map_congr_left
    intro t htm
    exact getDataUrlsFuel_stable (jsize spec) (idx t fromKey) _
      (mem_transformsOf_from_lt spec t htm) (Nat.lt_succ_self _)
  rw [h1, h2]

theorem mem_jsConcat_left (l : JSVal) (acc : List JSVal) (v : JSVal) (h : l ∈ acc) :
    l ∈ jsConcat acc v := by
  cases v <;> simp [jsConcat] <;> tauto

theorem mem_jsConcat_arr (l : JSVal) (acc : List JSVal) (xs : List JSVal) (h : l ∈ xs) :
    l ∈ jsConcat acc (JSVal.arr xs) := by
  simp [jsConcat]
  tauto

theorem getDataUrls_data_mem (spec u : JSVal) (h : isUndef spec = false)
    (hu : u ∈ dataUrlsOfData (idx spec dataKey)) : u ∈ getDataUrls spec := by
  rw [getDataUrls_eq spec h]
  simp only [List.mem_append]
  tauto

theorem getDataUrls_layers_subset (spec l u : JSVal) (h : isUndef spec = false)
    (hl : l ∈ layersOf spec) (hu : u ∈ getDataUrls l) : u ∈ getDataUrls spec := by
  rw [getDataUrls_eq spec h]
  simp only [List.mem_append, List.mem_flatten, List.mem_map]
  exact Or.inl (Or.inr ⟨getDataUrls l, ⟨l, hl, rfl⟩, hu⟩)

theorem getDataUrls_transform_subset (spec t u : JSVal)
    (ht : t ∈ transformsOf spec) (hu : u ∈ getDataUrls (idx t fromKey)) :
    u ∈ getDataUrls spec := by
  have h : isUndef spec = false := by
    unfold transformsOf at ht
    split at ht
    · rename_i ts harr
      exact idx_arr_isUndef_false spec transformKey ts harr
    · cases ht
  rw [getDataUrls_eq spec h]
  simp only [List.mem_append, List.mem_flatten, List.mem_map]
  exact Or.inr ⟨getDataUrls (idx t fromKey), ⟨t, ht, rfl⟩, hu⟩

theorem mem_transformsOf (spec t : JSVal) (ts : List JSVal)
    (harr : idx spec transformKey = JSVal.arr ts) (ht : t ∈ ts) : t ∈ transformsOf spec := by
  unfold transformsOf
  rw [harr]
  exact ht

theorem mem_layersOf_of_key (spec l : JSVal) (key : String) (ls : List JSVal)
    (hkey : key = layerKey ∨ key = concatKey ∨ key = hconcatKey ∨ key = vconcatKey)
    (harr : idx spec key = JSVal.arr ls) (hl : l ∈ ls) : l ∈ layersOf spec := by
  unfold layersOf
  rcases hkey with rfl | rfl | rfl | rfl
  · exact mem_jsConcat_left _ _ _ (mem_jsConcat_left _ _ _ (mem_jsConcat_left _ _ _
      (harr ▸ mem_jsConcat_arr l [] ls hl)))
  · exact mem_jsConcat_left _ _ _ (mem_jsConcat_left _ _ _
      (harr ▸ mem_jsConcat_arr l _ ls hl))
  · exact mem_jsConcat_left _ _ _ (harr ▸ mem_jsConcat_arr l _ ls hl)
  · exact harr ▸ mem_jsConcat_arr l _ ls hl

theorem idx_obj_isUndef_false (spec : JSVal) (k : String) (fs : List (String × JSVal))
    (h : idx spec k = JSVal.obj fs) : isUndef spec = false := by
  cases spec <;> simp [idx, isUndef] at h ⊢

/-- C1: for every visualization spec object, `getDataUrls` extracts the
embedded data urls for all the special-cased shapes the spec names: when
`spec['data']` is an object with a defined `url` it collects that url; when
`spec['data']` is an array it collects the `url` of every element whose `url`
is defined; it recursively collects the urls of every element of
`spec['layer']`, `spec['concat']`, `spec['hconcat']` and `spec['vconcat']`;
it recursively collects the urls of `t['from']` for every element `t` of
`spec['transform']`; and on an undefined argument it returns the empty
list. -/
theorem getDataUrls_collects :
    (getDataUrls JSVal.undef = [])
    ∧ (∀ spec fields, idx spec dataKey = JSVal.obj fields →
        isUndef (idx (JSVal.obj fields) urlKey) = false →
        idx (JSVal.obj fields) urlKey ∈ getDataUrls spec)
    ∧ (∀ spec ds d, idx spec dataKey = JSVal.arr ds → d ∈ ds →
        isUndef (idx d urlKey) = false → idx d urlKey ∈ getDataUrls spec)
    ∧ (∀ spec key ls l u,
        (key = layerKey ∨ key = concatKey ∨ key = hconcatKey ∨ key = vconcatKey) →
        idx spec key = JSVal.arr ls → l ∈ ls → u ∈ getDataUrls l → u ∈ getDataUrls spec)
    ∧ (∀ spec ts t u, idx spec transformKey = JSVal.arr ts → t ∈ ts →
        u ∈ getDataUrls (idx t fromKey) → u ∈ getDataUrls spec) := by
  refine ⟨getDataUrls_undef, ?_, ?_, ?_, ?_⟩
  · intro spec fields hdata hurl
    have hspec := idx_obj_isUndef_false spec dataKey fields hdata
    apply getDataUrls_data_mem spec _ hspec
    rw [hdata]
    have hred : dataUrlsOfData (JSVal.obj fields)
        = if isUndef (idx (JSVal.obj fields) urlKey) = false
          then [idx (JSVal.obj fields) urlKey] else [] := rfl
    rw [hred, if_pos hurl]
    exact List.mem_singleton.mpr rfl
  · intro spec ds d hdata hd hurl
    have hspec := idx_arr_isUndef_false spec dataKey ds hdata
    apply getDataUrls_data_mem spec _ hspec
    rw [hdata]
    have hred : dataUrlsOfData (JSVal.arr ds)
        = (ds.filter (fun d => !(isUndef (idx d urlKey)))).map (fun d => idx d urlKey) := rfl
    rw [hred]
    exact List.mem_map_of_mem _ (List.mem_filter.mpr ⟨hd, by simp [hurl]⟩)
  · intro spec key ls l u hkey harr hl hu
    have hspec : isUndef spec = false := by
      rcases hkey with rfl | rfl | rfl | rfl <;> exact idx_arr_isUndef_false spec _ ls harr
    exact getDataUrls_layers_subset spec l u hspec
      (mem_layersOf_of_key spec l key ls hkey harr hl) hu
  · intro spec ts t u harr ht hu
    exact getDataUrls_transform_subset spec t u (mem_transformsOf spec t ts harr ht) hu

/-- A data element carrying a url, for concrete instantiations. -/
def exDataElem : JSVal := JSVal.obj [(urlKey, JSVal.str ("sales.csv"))]

/-- A spec whose `data` property is an array of one url-carrying element. -/
def exDataArraySpec : JSVal := JSVal.obj [(dataKey, JSVal.arr [exDataElem])]

/-- Witness for C1: the url of an element of a `data` array is collected. -/
theorem getDataUrls_collects_witness :
    idx exDataElem urlKey ∈ getDataUrls exDataArraySpec :=
  getDataUrls_collects.2.2.1 exDataArraySpec [exDataElem] exDataElem rfl
    (List.mem_singleton.mpr rfl) rfl

/-- C6: `getDataUrls` terminates on every finite spec tree: every recursive
call — on the elements of the `layers` list built from `spec['layer']`,
`spec['concat']`, `spec['hconcat']`, `spec['vconcat']`, and on `t['from']`
for each element `t` of `spec['transform']` — descends into a strictly
smaller subtree, so any fuel above the tree size computes the same total
function. -/
theorem getDataUrls_terminates :
    (∀ spec l, isUndef spec = false → l ∈ layersOf spec → jsize l < jsize spec)
    ∧ (∀ spec t, t ∈ transformsOf spec → jsize (idx t fromKey) < jsize spec)
    ∧ (∀ (n : Nat) (spec : JSVal), jsize spec < n →
        getDataUrlsFuel n spec = getDataUrls spec) :=
  ⟨fun spec l h hl => mem_layersOf_lt spec l h hl,
   fun spec t ht => mem_transformsOf_from_lt spec t ht,
   fun n spec h => getDataUrlsFuel_stable n spec (jsize spec + 1) h (Nat.lt_succ_self _)⟩

/-- A spec with both a layer and a transform-sourced data reference. -/
def exLayeredSpec : JSVal :=
  JSVal.obj
    [(layerKey, JSVal.arr [JSVal.obj [(dataKey, JSVal.obj [(urlKey, JSVal.str ("a.csv"))])]]),
     (transformKey, JSVal.arr
       [JSVal.obj [(fromKey, JSVal.obj [(dataKey, JSVal.obj [(urlKey, JSVal.str ("b.csv"))])])]])]

/-- Witness for C6: on a concrete layered spec any sufficient fuel agrees
with `getDataUrls`. -/
theorem getDataUrls_terminates_witness :
    getDataUrlsFuel 50 exLayeredSpec = getDataUrls exLayeredSpec :=
  getDataUrls_terminates.2.2 50 exLayeredSpec (by decide)

/-! ### `DataPreview.getData`: loading the local data files a spec references

The filesystem is a parameter `fs : String → Option String` from resolved
paths to file contents (`fs.existsSync` / `fs.readFileSync`), and
`resolve : String → String` models
`path.join(path.dirname(this._uri.fsPath), filePath)`. -/

/-- `DataPreview.getFileData`: the content of the resolved local file, or
nothing when it does not exist (the source logs and returns `null`). -/
def getFileData (fs : String → Option String) (resolve : String → String)
    (filePath : String) : Option String :=
  fs (resolve filePath)

/-- Character-list prefix test, modelling JavaScript
`String.prototype.startsWith`. -/
def listStartsWith : List Char → List Char → Bool
  | [], _ => true
  | _ :: _, [] => false
  | c :: cs, d :: ds => c == d && listStartsWith cs ds

/-- `s.startsWith(pre)` on JavaScript strings. -/
def strStartsWith (s pre : String) : Bool := listStartsWith pre.toList s.toList

/-- `url.startsWith('http')` on a collected url value; a non-string url
(possible only for a malformed spec) is treated as not remote, where the
actual JavaScript would throw before reaching the filesystem. -/
def jsStartsWithHttp (v : JSVal) : Bool :=
  match v with
  | .str s => strStartsWith s httpPrefix
  | _ => false

/-- JavaScript object assignment `m[k] = v` on a string-keyed object
modelled as an association list with unique keys: an existing binding is
overwritten in place, a new key is appended. -/
def objInsert (m : List (String × String)) (k v : String) : List (String × String) :=
  if m.any (fun p => p.1 = k) then m.map (fun p => if p.1 = k then (k, v) else p)
  else m ++ [(k, v)]

/-- One step of the `forEach` loop of `DataPreview.getData`: read the local
file of one url and record its content under that url only when the
`if (fileData)` guard holds — the content is truthy, i.e. the file exists
(`getFileData` did not return `null`) and its text is not the empty string.
(On a non-string url the JavaScript `path.join` would throw; no entry
results either way.) -/
def addDataFile (fs : String → Option String) (resolve : String → String)
    (m : List (String × String)) (url : JSVal) : List (String × String) :=
  match url with
  | .str s =>
    match getFileData fs resolve s with
    | some fileData => if fileData = "" then m else objInsert m s fileData
    | none => m
  | _ => m

/-- The url list assembled by `DataPreview.getData`: the top-level urls
plus the urls of the top-level nested composition spec
(`dataUrls.concat(this.getDataUrls(spec['spec']))`). -/
def allDataUrls (spec : JSVal) : List JSVal :=
  getDataUrls spec ++ getDataUrls (idx spec specKey)

/-- `DataPreview.getData`: keep the non-remote urls and load each one's
local file, building the `dataFiles` object. -/
def getData (fs : String → Option String) (resolve : String → String)
    (spec : JSVal) : List (String × String) :=
  ((allDataUrls spec).filter (fun url => !(jsStartsWithHttp url))).foldl
    (addDataFile fs resolve) []

theorem objInsert_pos (m : List (String × String)) (k v : String)
    (h : m.any (fun q => q.1 = k) = true) :
    objInsert m k v = m.map (fun q => if q.1 = k then (k, v) else q) := by
  unfold objInsert
  rw [if_pos h]

theorem objInsert_neg (m : List (String × String)) (k v : String)
    (h : m.any (fun q => q.1 = k) = false) :
    objInsert m k v = m ++ [(k, v)] := by
  unfold objInsert
  rw [if_neg (by simp [h] : ¬ m.any (fun q => q.1 = k) = true)]

theorem mem_objInsert_self (m : List (String × String)) (k v : String) :
    (k, v) ∈ objInsert m k v := by
  cases h : m.any (fun q => q.1 = k) with
  | true =>
    rw [objInsert_pos m k v h]
    rcases List.any_eq_true.mp h with ⟨p, hp, hpk⟩
    have hk : p.1 = k := by simpa using hpk
    have himg : (fun q : String × String => if q.1 = k then (k, v) else q) p = (k, v) := by
      simp [hk]
    exact List.mem_map.mpr ⟨p, hp, himg⟩
  | false =>
    rw [objInsert_neg m k v h]
    simp

theorem mem_objInsert_of_ne (m : List (String × String)) (k v : String)
    (p : String × String) (hp : p ∈ m) (hne : p.1 ≠ k) : p ∈ objInsert m k v := by
  cases h : m.any (fun q => q.1 = k) with
  | true =>
    rw [objInsert_pos m k v h]
    have himg : (fun q : String × String => if q.1 = k then (k, v) else q) p = p := by
      simp [hne]
    exact List.mem_map.mpr ⟨p, hp, himg⟩
  | false =>
    rw [objInsert_neg m k v h]
    exact List.mem_append_left _ hp

theorem mem_objInsert_elim (m : List (String × String)) (k v : String)
    (p : String × String) (hp : p ∈ objInsert m k v) : p ∈ m ∨ p = (k, v) := by
  cases h : m.any (fun q => q.1 = k) with
  | true =>
    rw [objInsert_pos m k v h] at hp
    rcases List.mem_map.mp hp with ⟨q, hq, hqe⟩
    by_cases hqk : q.1 = k
    · right; rw [if_pos hqk] at hqe; exact hqe.symm
    · left; rw [if_neg hqk] at hqe; exact hqe ▸ hq
  | false =>
    rw [objInsert_neg m k v h] at hp
    rcases List.mem_append.mp hp with hp' | hp'
    · exact Or.inl hp'
    · exact Or.inr (List.mem_singleton.mp hp')

theorem foldl_addDataFile_preserve (fs : String → Option String)
    (resolve : String → String) (s content : String)
    (hfile : fs (resolve s) = some content) (hne : content ≠ "") :
    ∀ (L : List JSVal) (m : List (String × String)),
      ((s, content) ∈ m ∨ JSVal.str s ∈ L) →
      (s, content) ∈ L.foldl (addDataFile fs resolve) m := by
  intro L
  induction L with
  | nil =>
    intro m h
    rcases h with h | h
    · simpa using h
    · cases h
  | cons u L ih =>
    intro m h
    simp only [List.foldl_cons]
    apply ih
    rcases h with hm | hL
    · left
      cases u with
      | str k =>
        show (s, content) ∈
          (match getFileData fs resolve k with
            | some fileData => if fileData = "" then m else objInsert m k fileData
            | none => m)
        cases hk : getFileData fs resolve k with
        | none => exact hm
        | some v =>
          show (s, content) ∈ if v = "" then m else objInsert m k v
          by_cases hks : k = s
          · subst hks
            have hv : v = content := by
              rw [show getFileData fs resolve k = fs (resolve k) from rfl, hfile] at hk
              exact (Option.some.inj hk).symm
            subst hv
            rw [if_neg hne]
            exact mem_objInsert_self m k v
          · by_cases hv : v = ""
            · rw [if_pos hv]
              exact hm
            · rw [if_neg hv]
              exact mem_objInsert_of_ne m k v (s, content) hm (fun hc => hks hc.symm)
      | undef => exact hm
      | null => exact hm
      | bool b => exact hm
      | num n => exact hm
      | arr xs => exact hm
      | obj fs' => exact hm
    · rcases List.mem_cons.mp hL with heq | hL'
      · left
        rw [← heq]
        show (s, content) ∈
          (match getFileData fs resolve s with
            | some fileData => if fileData = "" then m else objInsert m s fileData
            | none => m)
        rw [show getFileData fs resolve s = fs (resolve s) from rfl, hfile]
        show (s, content) ∈ if content = "" then m else objInsert m s content
        rw [if_neg hne]
        exact mem_objInsert_self m s content
      · right
        exact hL'

/-- C2 (amended): for every parsed visualization spec, `getData` returns a
map that contains, for every local (non-`http`-prefixed) string data url
collected by `getDataUrls` from the spec or from its top-level nested
composition spec `spec['spec']` (one nesting level only), whose resolved
file exists with truthy (non-empty) content, an entry mapping that url to
the file's text content. -/
theorem getData_loads_existing_local (fs : String → Option String)
    (resolve : String → String) (spec : JSVal) (s content : String)
    (hmem : JSVal.str s ∈ allDataUrls spec)
    (hlocal : strStartsWith s httpPrefix = false)
    (hfile : getFileData fs resolve s = some content)
    (hnonempty : content ≠ "") :
    (s, content) ∈ getData fs resolve spec := by
  unfold getData
  apply foldl_addDataFile_preserve fs resolve s content hfile hnonempty
  right
  exact List.mem_filter.mpr ⟨hmem, by simp [jsStartsWithHttp, hlocal]⟩

/-- A spec whose only data url sits two `spec` nesting levels deep. -/
def nestedTwiceSpec : JSVal :=
  JSVal.obj [(specKey, JSVal.obj [(specKey,
    JSVal.obj [(dataKey, JSVal.obj [(urlKey, JSVal.str ("deep.csv"))])])])]

/-- A filesystem on which every path exists with content `A`. -/
def totalFS : String → Option String := fun _p => some ("A")

/-- Path resolution that leaves the url unchanged. -/
def idResolve : String → String := fun p => p

/-- A filesystem on which every path exists but holds the empty string. -/
def emptyFS : String → Option String := fun _p => some ("")

/-- C2 counterexample, refuting the claim at two explicit inputs: a local
data url referenced two `spec` nesting levels deep, whose file exists, gets
no entry in the returned map (the code follows the `spec` keyword only one
level from the top, not at any depth); and a top-level local url whose file
exists with empty content also gets no entry (the `if (fileData)` truthiness
guard skips it), although the claim promises an entry whenever the resolved
file exists. -/
theorem getData_nested_spec_counterexample :
    (idx (idx (idx (idx nestedTwiceSpec specKey) specKey) dataKey) urlKey
        = JSVal.str ("deep.csv")
      ∧ strStartsWith ("deep.csv") httpPrefix = false
      ∧ getFileData totalFS idResolve ("deep.csv") = some ("A")
      ∧ getData totalFS idResolve nestedTwiceSpec = [])
    ∧ (JSVal.str ("sales.csv") ∈ allDataUrls exDataArraySpec
      ∧ strStartsWith ("sales.csv") httpPrefix = false
      ∧ getFileData emptyFS idResolve ("sales.csv") = some ("")
      ∧ getData emptyFS idResolve exDataArraySpec = []) :=
  ⟨⟨rfl, by decide, rfl, rfl⟩, ⟨List.Mem.head _, by decide, rfl, rfl⟩⟩

/-- Witness for C2 (amended): a concrete local url whose file exists with
non-empty content is loaded into the map. -/
theorem getData_loads_existing_local_witness :
    (("sales.csv" : String), ("A" : String)) ∈ getData totalFS idResolve exDataArraySpec :=
  getData_loads_existing_local totalFS idResolve exDataArraySpec ("sales.csv") ("A")
    (List.Mem.head _) (by decide) rfl (by decide)

theorem foldl_addDataFile_congr (fs fs' : String → Option String)
    (resolve : String → String) :
    ∀ (L : List JSVal) (m : List (String × String)),
      (∀ s : String, JSVal.str s ∈ L → fs (resolve s) = fs' (resolve s)) →
      L.foldl (addDataFile fs resolve) m = L.foldl (addDataFile fs' resolve) m := by
  intro L
  induction L with
  | nil => intro m _; rfl
  | cons u L ih =>
    intro m h
    simp only [List.foldl_cons]
    have hstep : addDataFile fs resolve m u = addDataFile fs' resolve m u := by
      cases u with
      | str k =>
        have hk : fs (resolve k) = fs' (resolve k) := h k (List.Mem.head _)
        show (match getFileData fs resolve k with
              | some fileData => if fileData = "" then m else objInsert m k fileData
              | none => m)
          = (match getFileData fs' resolve k with
              | some fileData => if fileData = "" then m else objInsert m k fileData
              | none => m)
        rw [show getFileData fs resolve k = fs (resolve k) from rfl,
          show getFileData fs' resolve k = fs' (resolve k) from rfl, hk]
      | undef => rfl
      | null => rfl
      | bool b => rfl
      | num n => rfl
      | arr xs => rfl
      | obj fs'' => rfl
    rw [hstep]
    exact ih _ (fun s hs => h s (List.mem_cons_of_mem _ hs))

theorem foldl_addDataFile_sound (fs : String → Option String)
    (resolve : String → String) :
    ∀ (L : List JSVal) (m : List (String × String)),
      (∀ p ∈ m, strStartsWith p.1 httpPrefix = false ∧ fs (resolve p.1) = some p.2) →
      (∀ u ∈ L, jsStartsWithHttp u = false) →
      ∀ p ∈ L.foldl (addDataFile fs resolve) m,
        strStartsWith p.1 httpPrefix = false ∧ fs (resolve p.1) = some p.2 := by
  intro L
  induction L with
  | nil =>
    intro m hm _ p hp
    exact hm p (by simpa using hp)
  | cons u L ih =>
    intro m hm hL p hp
    simp only [List.foldl_cons] at hp
    refine ih (addDataFile fs resolve m u) ?_ (fun v hv => hL v (List.mem_cons_of_mem _ hv)) p hp
    intro q hq
    cases u with
    | str k =>
      have hhttp : strStartsWith k httpPrefix = false := by
        have := hL (JSVal.str k) (List.Mem.head _)
        simpa [jsStartsWithHttp] using this
      revert hq
      show q ∈ (match getFileData fs resolve k with
            | some fileData => if fileData = "" then m else objInsert m k fileData
            | none => m) → _
      cases hk : getFileData fs resolve k with
      | none => exact fun hq => hm q hq
      | some v =>
        show q ∈ (if v = "" then m else objInsert m k v) → _
        by_cases hv : v = ""
        · rw [if_pos hv]
          exact fun hq => hm q hq
        · rw [if_neg hv]
          intro hq
          rcases mem_objInsert_elim m k v q hq with hq' | rfl
          · exact hm q hq'
          · exact ⟨hhttp, hk⟩
    | undef => exact hm q hq
    | null => exact hm q hq
    | bool b => exact hm q hq
    | num n => exact hm q hq
    | arr xs => exact hm q hq
    | obj fs'' => exact hm q hq

/-- C10: a data url starting with `http` never contributes a filesystem read
(`getData` only consults the filesystem at the resolved paths of the
non-`http` string urls), and a local url whose resolved file does not exist
is silently omitted: every entry of the returned map is a non-remote url
whose resolved file exists with exactly that content. -/
theorem getData_remote_and_missing :
    (∀ (fs fs' : String → Option String) (resolve : String → String) (spec : JSVal),
      (∀ s : String, JSVal.str s ∈ allDataUrls spec → strStartsWith s httpPrefix = false →
        fs (resolve s) = fs' (resolve s)) →
      getData fs resolve spec = getData fs' resolve spec)
    ∧ (∀ (fs : String → Option String) (resolve : String → String) (spec : JSVal)
        (p : String × String), p ∈ getData fs resolve spec →
        strStartsWith p.1 httpPrefix = false ∧ fs (resolve p.1) = some p.2) := by
  constructor
  · intro fs fs' resolve spec h
    unfold getData
    apply foldl_addDataFile_congr
    intro s hs
    rcases List.mem_filter.mp hs with ⟨hmem, hpred⟩
    refine h s hmem ?_
    simpa [jsStartsWithHttp] using hpred
  · intro fs resolve spec p hp
    refine foldl_addDataFile_sound fs resolve _ [] (by simp) ?_ p hp
    intro u hu
    rcases List.mem_filter.mp hu with ⟨_, hpred⟩
    simpa using hpred

/-- Witness for C10: the single loaded entry of a concrete run is a local
url whose file exists with that content. -/
theorem getData_remote_and_missing_witness :
    strStartsWith ("sales.csv") httpPrefix = false
    ∧ totalFS (idResolve ("sales.csv")) = some ("A") :=
  getData_remote_and_missing.2 totalFS idResolve exDataArraySpec
    ((("sales.csv" : String), ("A" : String))) (List.Mem.head _)

/-! ### `DataPreview.refresh`: messages posted to the webview -/

/-- A message posted to the preview webview by `DataPreview.refresh`: either
the `refresh` message carrying the file name, uri, spec text and loaded data,
or the error message posted when parsing the document text throws. -/
inductive WebviewMessage where
  | refreshMsg (fileName : String) (uriStr : String) (specText : String)
      (data : List (String × String))
  | errorMsg (error : String)

/-- `DataPreview.refresh`, as the list of messages it posts: parse the
document text with `JSON.parse` (the parameter `jsonParse`); on success post
one `refresh` message with the spec text and the data `getData` loads; on a
parse error post one message carrying the error. -/
def refresh (jsonParse : String → Except String JSVal) (fs : String → Option String)
    (resolve : String → String) (fileName uriStr docText : String) : List WebviewMessage :=
  match jsonParse docText with
  | .ok spec => [WebviewMessage.refreshMsg fileName uriStr docText (getData fs resolve spec)]
  | .error e => [WebviewMessage.errorMsg e]

/-- C5: in `DataPreview.refresh`, when the previewed document's text is not
valid JSON, the webview is sent exactly one message carrying the error, and
no `refresh` message (no spec or data payload) is posted. -/
theorem refresh_parse_error (jsonParse : String → Except String JSVal)
    (fs : String → Option String) (resolve : String → String)
    (fileName uriStr docText e : String)
    (h : jsonParse docText = Except.error e) :
    refresh jsonParse fs resolve fileName uriStr docText = [WebviewMessage.errorMsg e]
    ∧ (∀ fn u s d, WebviewMessage.refreshMsg fn u s d
        ∉ refresh jsonParse fs resolve fileName uriStr docText) := by
  unfold refresh
  rw [h]
  refine ⟨rfl, ?_⟩
  intro fn u s d hmem
  rcases List.mem_singleton.mp hmem with h'
  cases h'

/-- A `JSON.parse` that always throws, for concrete instantiation. -/
def exParseFail : String → Except String JSVal := fun _s => Except.error ("Unexpected token")

/-- Witness for C5: a concrete failing parse posts only the error message. -/
theorem refresh_parse_error_witness :
    refresh exParseFail totalFS idResolve ("d.json") ("file./d.json") ("nope")
        = [WebviewMessage.errorMsg ("Unexpected token")]
    ∧ (∀ fn u s d, WebviewMessage.refreshMsg fn u s d
        ∉ refresh exParseFail totalFS idResolve ("d.json") ("file./d.json") ("nope")) :=
  refresh_parse_error exParseFail totalFS idResolve ("d.json") ("file./d.json")
    ("nope") ("Unexpected token") rfl

/-! ### `Json5DataProvider` -/

/-- The observable outcome of one `Json5DataProvider.getData` call: whether
an error message was shown to the user, and the arguments of the `loadData`
callback invocations, in order. -/
structure ProviderRun where
  errorMessage : Option String
  loadDataCalls : List JSVal

/-- `Json5DataProvider.getData`: read the data file (`fileUtils.readDataFile`,
parameter `readDataFile`), parse it with the JSON5 parser (parameter
`json5Parse`); a throw from either leaves `data` as the initial empty array
and shows the error message; in every case `loadData` is then called exactly
once with `convertJsonData` applied to the resulting data. -/
def json5ProviderGetData (readDataFile : String → Except String String)
    (json5Parse : String → Except String JSVal) (convertJsonData : JSVal → JSVal)
    (dataUrl : String) : ProviderRun :=
  match readDataFile dataUrl with
  | .error e => { errorMessage := some e, loadDataCalls := [convertJsonData (JSVal.arr [])] }
  | .ok content =>
    match json5Parse content with
    | .error e => { errorMessage := some e, loadDataCalls := [convertJsonData (JSVal.arr [])] }
    | .ok d => { errorMessage := none, loadDataCalls := [convertJsonData d] }

/-- C3: for every dataUrl whose file content reads and parses successfully,
`Json5DataProvider.getData` invokes the `loadData` callback exactly once,
with the parsed value normalized by `convertJsonData`, and shows no error. -/
theorem json5_getData_parse_ok (readDataFile : String → Except String String)
    (json5Parse : String → Except String JSVal) (convertJsonData : JSVal → JSVal)
    (dataUrl content : String) (d : JSVal)
    (hread : readDataFile dataUrl = Except.ok content)
    (hparse : json5Parse content = Except.ok d) :
    json5ProviderGetData readDataFile json5Parse convertJsonData dataUrl
      = { errorMessage := none, loadDataCalls := [convertJsonData d] } := by
  unfold json5ProviderGetData
  simp only [hread, hparse]

/-- A read that succeeds with a fixed content, for concrete instantiation. -/
def exReadOk : String → Except String String := fun _u => Except.ok ("[1, 2]")

/-- A parse that succeeds with a fixed array, for concrete instantiation. -/
def exParseOk : String → Except String JSVal :=
  fun _c => Except.ok (JSVal.arr [JSVal.num 1, JSVal.num 2])

/-- The identity normalization, for concrete instantiation. -/
def exConvert : JSVal → JSVal := fun v => v

/-- Witness for C3: a concrete successful read-and-parse calls `loadData`
once with the converted parsed value. -/
theorem json5_getData_parse_ok_witness :
    json5ProviderGetData exReadOk exParseOk exConvert ("t.json5")
      = { errorMessage := none,
          loadDataCalls := [exConvert (JSVal.arr [JSVal.num 1, JSVal.num 2])] } :=
  json5_getData_parse_ok exReadOk exParseOk exConvert ("t.json5") ("[1, 2]")
    (JSVal.arr [JSVal.num 1, JSVal.num 2]) rfl rfl

/-- C4: when reading or JSON5-parsing the data file throws,
`Json5DataProvider.getData` shows the error message and still invokes
`loadData` exactly once, with `convertJsonData` applied to the empty array;
there is no retry or other recovery. -/
theorem json5_getData_parse_error (readDataFile : String → Except String String)
    (json5Parse : String → Except String JSVal) (convertJsonData : JSVal → JSVal)
    (dataUrl e : String)
    (h : readDataFile dataUrl = Except.error e
      ∨ (∃ content, readDataFile dataUrl = Except.ok content
          ∧ json5Parse content = Except.error e)) :
    json5ProviderGetData readDataFile json5Parse convertJsonData dataUrl
      = { errorMessage := some e,
          loadDataCalls := [convertJsonData (JSVal.arr [])] } := by
  unfold json5ProviderGetData
  rcases h with h | ⟨content, hread, hparse⟩
  · rw [h]
  · simp only [hread, hparse]

/-- A read that always throws, for concrete instantiation. -/
def exReadErr : String → Except String String := fun _u => Except.error ("ENOENT")

/-- Witness for C4: a concrete failing read shows the error and still calls
`loadData` once with the converted empty array. -/
theorem json5_getData_parse_error_witness :
    json5ProviderGetData exReadErr exParseOk exConvert ("missing.json5")
      = { errorMessage := some ("ENOENT"),
          loadDataCalls := [exConvert (JSVal.arr [])] } :=
  json5_getData_parse_error exReadErr exParseOk exConvert ("missing.json5") ("ENOENT")
    (Or.inl rfl)

/-- `Json5DataProvider.getDataTableNames`: none for json data files. -/
def json5GetDataTableNames (dataUrl : String) : List String := []

/-- `Json5DataProvider.getDataSchema`: none for json data files. -/
def json5GetDataSchema (dataUrl : String) : JSVal := JSVal.null

/-- C9: for every dataUrl, `Json5DataProvider.getDataTableNames` returns the
empty array and `Json5DataProvider.getDataSchema` returns null: the JSON5
provider never exposes multiple data tables or a schema. -/
theorem json5_no_tables_no_schema :
    ∀ dataUrl : String,
      json5GetDataTableNames dataUrl = [] ∧ json5GetDataSchema dataUrl = JSVal.null :=
  fun _dataUrl => ⟨rfl, rfl⟩

/-! ### `DataPreview.getLocalResourceRoots` and the serializer -/

/-- A vscode `Uri`, reduced to the parts the analysed code reads. -/
structure ModelUri where
  scheme : String
  fsPath : String

/-- The `file` uri scheme. -/
def fileScheme : String := "file"

/-- The empty (falsy) uri scheme. -/
def emptyScheme : String := ""

/-- The `data` scheme given to the preview uri. -/
def dataScheme : String := "data"

/-- The extension's `scripts` directory name. -/
def scriptsDir : String := "scripts"

/-- `Uri.file(p)`: a uri with the `file` scheme and the given path. -/
def uriFile (p : String) : ModelUri := { scheme := fileScheme, fsPath := p }

/-- `DataPreview.getLocalResourceRoots`: push the workspace folder of the
previewed uri when one exists, otherwise the directory of the previewed file
when the uri has no scheme or the `file` scheme; then always push the
extension's `scripts` directory.  `getWorkspaceFolder` models
`workspace.getWorkspaceFolder(uri)?.uri`; `dirname` and `pathJoin` model
Node's `path.dirname` and `path.join`. -/
def getLocalResourceRoots (getWorkspaceFolder : ModelUri → Option ModelUri)
    (dirname : String → String) (pathJoin : String → String → String)
    (extensionPath : String) (uri : ModelUri) : List ModelUri :=
  (match getWorkspaceFolder uri with
    | some wfUri => [wfUri]
    | none =>
      if uri.scheme = emptyScheme ∨ uri.scheme = fileScheme
      then [uriFile (dirname uri.fsPath)]
      else [])
  ++ [uriFile (pathJoin extensionPath scriptsDir)]

/-- C7: `getLocalResourceRoots` always includes the extension's `scripts`
directory; it includes the workspace folder containing the preview's uri
when one exists, and otherwise the directory of the previewed file when the
uri has no scheme or the `file` scheme; and the returned list is never
empty. -/
theorem getLocalResourceRoots_spec (getWorkspaceFolder : ModelUri → Option ModelUri)
    (dirname : String → String) (pathJoin : String → String → String)
    (extensionPath : String) (uri : ModelUri) :
    (uriFile (pathJoin extensionPath scriptsDir)
        ∈ getLocalResourceRoots getWorkspaceFolder dirname pathJoin extensionPath uri)
    ∧ (∀ wf, getWorkspaceFolder uri = some wf →
        wf ∈ getLocalResourceRoots getWorkspaceFolder dirname pathJoin extensionPath uri)
    ∧ (getWorkspaceFolder uri = none →
        (uri.scheme = emptyScheme ∨ uri.scheme = fileScheme) →
        uriFile (dirname uri.fsPath)
          ∈ getLocalResourceRoots getWorkspaceFolder dirname pathJoin extensionPath uri)
    ∧ getLocalResourceRoots getWorkspaceFolder dirname pathJoin extensionPath uri ≠ [] := by
  have hscripts : uriFile (pathJoin extensionPath scriptsDir)
      ∈ getLocalResourceRoots getWorkspaceFolder dirname pathJoin extensionPath uri :=
    List.mem_append_right _ (List.mem_singleton.mpr rfl)
  refine ⟨hscripts, ?_, ?_, ?_⟩
  · intro wf h
    unfold getLocalResourceRoots
    rw [h]
    exact List.mem_append_left _ (List.mem_singleton.mpr rfl)
  · intro h hsch
    unfold getLocalResourceRoots
    rw [h, if_pos hsch]
    exact List.mem_append_left _ (List.mem_singleton.mpr rfl)
  · intro hnil
    rw [hnil] at hscripts
    exact List.not_mem_nil _ hscripts

/-- A workspace lookup that finds no folder, for concrete instantiation. -/
def exGwfNone : ModelUri → Option ModelUri := fun _u => none

/-- A fixed parent directory, for concrete instantiation. -/
def exDirname : String → String := fun _p => ("/work")

/-- Path concatenation with a separator, for concrete instantiation. -/
def exPathJoin : String → String → String := fun a b => a ++ ("/") ++ b

/-- A `file`-scheme uri, for concrete instantiation. -/
def exUri : ModelUri := { scheme := fileScheme, fsPath := ("/work/data.json") }

/-- The extension path, for concrete instantiation. -/
def exExtPath : String := "/ext"

/-- Witness for C7: with no workspace folder and a `file` uri the previewed
file's directory is a resource root. -/
theorem getLocalResourceRoots_spec_witness :
    uriFile (exDirname exUri.fsPath)
      ∈ getLocalResourceRoots exGwfNone exDirname exPathJoin exExtPath exUri :=
  (getLocalResourceRoots_spec exGwfNone exDirname exPathJoin exExtPath exUri).2.2.1
    rfl (Or.inr rfl)

/-- A vscode webview panel, reduced to the parts the analysed code reads. -/
structure PanelModel where
  id : Nat
  viewColumn : Int

/-- The fields of a constructed `DataPreview` that the serializer claim
observes: the constructor arguments it was given and the state the
constructor derives from them. -/
structure DataPreviewModel where
  viewType : String
  extensionPath : String
  uri : ModelUri
  previewUri : ModelUri
  fileName : String
  viewColumn : Int
  panel : PanelModel

/-- The `DataPreview` constructor: store the extension path and uri, derive
the preview uri (`data` scheme) and file name (`path.basename`), and keep the
given webview panel when one is passed, creating a fresh one via
`window.createWebviewPanel` (parameter `createWebviewPanel`) otherwise. -/
def mkDataPreview (createWebviewPanel : String → Int → PanelModel)
    (basename : String → String) (viewType extensionPath : String)
    (uri : ModelUri) (viewColumn : Int) (panel : Option PanelModel) : DataPreviewModel :=
  { viewType := viewType
    extensionPath := extensionPath
    uri := uri
    previewUri := { uri with scheme := dataScheme }
    fileName := basename uri.fsPath
    viewColumn := viewColumn
    panel :=
      match panel with
      | some p => p
      | none => createWebviewPanel viewType viewColumn }

/-- Modelled from the spec: `previewManager.add` (module `preview.manager`,
whose source is not among the analysed files) registers a preview with the
preview manager; modelled as appending it to the manager's collection. -/
def previewManagerAdd (mgr : List DataPreviewModel) (p : DataPreviewModel) :
    List DataPreviewModel :=
  mgr ++ [p]

/-- `DataPreviewSerializer.deserializeWebviewPanel`: construct a new
`DataPreview` from the uri parsed out of the saved state (`Uri.parse`,
parameter `uriParse`), the restored panel's view column and the existing
webview panel, and register it with the preview manager. -/
def deserializeWebviewPanel (createWebviewPanel : String → Int → PanelModel)
    (basename : String → String) (uriParse : String → ModelUri)
    (viewType extensionPath : String) (mgr : List DataPreviewModel)
    (panel : PanelModel) (stateUri : String) : List DataPreviewModel :=
  previewManagerAdd mgr
    (mkDataPreview createWebviewPanel basename viewType extensionPath
      (uriParse stateUri) panel.viewColumn (some panel))

/-- C8: on editor reload, `deserializeWebviewPanel` restores a preview from
its serialized state: the preview it registers with the preview manager is
constructed from the uri parsed from the saved state, carries the restored
panel's view column, reuses the existing webview panel (no new panel is
created), and the manager's collection is extended by exactly that
preview. -/
theorem deserialize_restores (createWebviewPanel : String → Int → PanelModel)
    (basename : String → String) (uriParse : String → ModelUri)
    (viewType extensionPath : String) (mgr : List DataPreviewModel)
    (panel : PanelModel) (stateUri : String) :
    (mkDataPreview createWebviewPanel basename viewType extensionPath
        (uriParse stateUri) panel.viewColumn (some panel)
      ∈ deserializeWebviewPanel createWebviewPanel basename uriParse viewType
          extensionPath mgr panel stateUri)
    ∧ (mkDataPreview createWebviewPanel basename viewType extensionPath
        (uriParse stateUri) panel.viewColumn (some panel)).uri = uriParse stateUri
    ∧ (mkDataPreview createWebviewPanel basename viewType extensionPath
        (uriParse stateUri) panel.viewColumn (some panel)).viewColumn = panel.viewColumn
    ∧ (mkDataPreview createWebviewPanel basename viewType extensionPath
        (uriParse stateUri) panel.viewColumn (some panel)).panel = panel
    ∧ deserializeWebviewPanel createWebviewPanel basename uriParse viewType
        extensionPath mgr panel stateUri
      = mgr ++ [mkDataPreview createWebviewPanel basename viewType extensionPath
          (uriParse stateUri) panel.viewColumn (some panel)] :=
  ⟨List.mem_append_right _ (List.mem_singleton.mpr rfl), rfl, rfl, rfl, rfl⟩

end DataPreviewSpec
